import Mathlib

/-!
Shallow embedding of `src/index.ts` of
airfocusio/github-action-scoverage-pull-request-comment.

Strings are modelled as `List Char` (called `Str`).  JavaScript numbers are
modelled by `JsNum`: an exact rational, `NaN`, or a signed infinity; the
arithmetic used by the action (integer sums, one division, multiplication
by 100) is exact in rationals, so no binary rounding is modelled.  Negative
zero is not modelled; the action never produces a negative-zero denominator
(all denominators are sums starting from `+0`).

The two regular expressions of the source are linear patterns of literals
and greedy character-class captures where every capture is followed by a
character excluded from its class, so a deterministic scanner (first match
position wins, greedy capture, `matchAll` resumes after the end of the
previous match) is an exact model of the JavaScript regex semantics on
these patterns.
-/

abbrev Str := List Char

/-- JavaScript `String.prototype.includes`: `needle` occurs as a contiguous
substring of `hay` (the empty needle is contained in every string). -/
def containsSubstr (hay needle : Str) : Bool :=
  needle.isPrefixOf hay ||
    match hay with
    | [] => false
    | _ :: t => containsSubstr t needle

/-- JavaScript `String.prototype.endsWith`. -/
def strEndsWith (s t : Str) : Bool :=
  t.isSuffixOf s

/-- Kernel-reducible rational addition (`Rat.add` is irreducible, which
would block `decide`-based evaluation); `Rat.divInt` normalizes, so the
result is the canonical rational equal to `a + b`. -/
def ratAdd (a b : ℚ) : ℚ :=
  Rat.divInt (a.num * b.den + b.num * a.den) (a.den * b.den)

/-- Kernel-reducible rational multiplication, equal to `a * b`. -/
def ratMul (a b : ℚ) : ℚ :=
  Rat.divInt (a.num * b.num) (a.den * b.den)

/-- Kernel-reducible rational division, equal to `a / b` for `b ≠ 0`
(callers guard the zero case). -/
def ratDiv (a b : ℚ) : ℚ :=
  Rat.divInt (a.num * b.den) (a.den * b.num)

/-- A JavaScript number as used by the action: an exact finite value,
`NaN`, or a signed infinity. -/
inductive JsNum where
  | num (q : ℚ)
  | nan
  | inf
  | ninf
deriving DecidableEq, Repr

namespace JsNum

/-- JavaScript `Number.isFinite`. -/
def isFinite : JsNum → Bool
  | num _ => true
  | _ => false

/-- JavaScript `+` on numbers. -/
def add : JsNum → JsNum → JsNum
  | num a, num b => num (ratAdd a b)
  | nan, _ => nan
  | _, nan => nan
  | inf, ninf => nan
  | ninf, inf => nan
  | inf, _ => inf
  | _, inf => inf
  | ninf, _ => ninf
  | _, ninf => ninf

/-- JavaScript `*` on numbers. -/
def mul : JsNum → JsNum → JsNum
  | num a, num b => num (ratMul a b)
  | nan, _ => nan
  | _, nan => nan
  | inf, num b => if 0 < b then inf else if b < 0 then ninf else nan
  | num a, inf => if 0 < a then inf else if a < 0 then ninf else nan
  | ninf, num b => if 0 < b then ninf else if b < 0 then inf else nan
  | num a, ninf => if 0 < a then ninf else if a < 0 then inf else nan
  | inf, inf => inf
  | inf, ninf => ninf
  | ninf, inf => ninf
  | ninf, ninf => inf

/-- JavaScript `/` on numbers (negative zero is not modelled; division by
the modelled zero behaves like division by `+0`). -/
def div : JsNum → JsNum → JsNum
  | num a, num b =>
    if b = 0 then (if 0 < a then inf else if a < 0 then ninf else nan)
    else num (ratDiv a b)
  | nan, _ => nan
  | _, nan => nan
  | num _, inf => num 0
  | num _, ninf => num 0
  | inf, num b => if b < 0 then ninf else inf
  | ninf, num b => if b < 0 then inf else ninf
  | inf, inf => nan
  | inf, ninf => nan
  | ninf, inf => nan
  | ninf, ninf => nan

/-- JavaScript `>=` on numbers (`false` whenever either side is `NaN`). -/
def jge : JsNum → JsNum → Bool
  | nan, _ => false
  | _, nan => false
  | num a, num b => a ≥ b
  | inf, _ => true
  | _, inf => false
  | _, ninf => true
  | ninf, _ => false

end JsNum

/-- The whitespace characters skipped by JavaScript numeric parsing (the
common ones; exotic Unicode spaces are not modelled). -/
def isJsWhitespace (c : Char) : Bool :=
  c = ' ' || c = '\t' || c = '\n' || c = '\r'

/-- Numeric value of a digit string. -/
def digitsToNat (s : Str) : Nat :=
  s.foldl (fun acc c => acc * 10 + (c.toNat - '0'.toNat)) 0

/-- Split an optional leading sign off a string; returns whether the sign
was `-`. -/
def splitSign : Str → Bool × Str
  | '-' :: t => (true, t)
  | '+' :: t => (false, t)
  | s => (false, s)

/-- JavaScript `Number.parseInt(s, 10)`: skip whitespace, optional sign,
then the longest leading digit run; `NaN` if that run is empty. -/
def parseIntJs (s : Str) : JsNum :=
  let s1 := s.dropWhile isJsWhitespace
  let signed := splitSign s1
  let ds := signed.2.takeWhile Char.isDigit
  if ds.isEmpty then JsNum.nan
  else
    let v : ℤ := digitsToNat ds
    JsNum.num (if signed.1 then (-v : ℤ) else v)

/-- JavaScript `Number.parseFloat`: skip whitespace, optional sign, then
`Infinity`, or digits with optional fraction and optional exponent;
`NaN` when no digits are found.  Exact rational value (binary-double
rounding is not modelled). -/
def parseFloatJs (s : Str) : JsNum :=
  let s1 := s.dropWhile isJsWhitespace
  let signed := splitSign s1
  let neg := signed.1
  let s2 := signed.2
  if "Infinity".toList.isPrefixOf s2 then
    (if neg then JsNum.ninf else JsNum.inf)
  else
    let intDs := s2.takeWhile Char.isDigit
    let s3 := s2.dropWhile Char.isDigit
    let fracPart : Str × Str :=
      match s3 with
      | '.' :: t => (t.takeWhile Char.isDigit, t.dropWhile Char.isDigit)
      | t => ([], t)
    let fracDs := fracPart.1
    let s4 := fracPart.2
    if intDs.isEmpty && fracDs.isEmpty then JsNum.nan
    else
      let exp : ℤ :=
        match s4 with
        | c :: t =>
          if c = 'e' || c = 'E' then
            let esigned := splitSign t
            let eds := esigned.2.takeWhile Char.isDigit
            if eds.isEmpty then 0
            else if esigned.1 then (-(digitsToNat eds : ℤ)) else (digitsToNat eds : ℤ)
          else 0
        | [] => 0
      -- value = ±(intPart + fracPart / 10^fracLen) * 10^exp, written as one
      -- exact fraction so that it reduces in the kernel
      let mantNum : ℤ :=
        (digitsToNat intDs : ℤ) * 10 ^ fracDs.length + (digitsToNat fracDs : ℤ)
      let signedNum : ℤ := if neg then -mantNum else mantNum
      JsNum.num
        (if 0 ≤ exp then Rat.divInt (signedNum * 10 ^ exp.toNat) (10 ^ fracDs.length)
         else Rat.divInt signedNum (10 ^ fracDs.length * 10 ^ (-exp).toNat))

/-- Match a literal at the start of the input; on success return the rest. -/
def matchLit (lit s : Str) : Option Str :=
  if lit.isPrefixOf s then some (s.drop lit.length) else none

/-- Greedy one-or-more capture of characters satisfying `p`; on success
return the capture and the rest. -/
def captureWhile (p : Char → Bool) (s : Str) : Option (Str × Str) :=
  let cap := s.takeWhile p
  if cap.isEmpty then none else some (cap, s.dropWhile p)

/-- The character class of `[^"]` in the source's regexes. -/
def notQuote (c : Char) : Bool :=
  c ≠ '"'

/-- The four captures of the document-level summary regex (line 68). -/
structure SummaryCaptures where
  statementCountStr : Str
  statementsInvokedStr : Str
  statementRateStr : Str
  branchRateStr : Str
deriving DecidableEq, Repr

/-- Attempt the summary regex at the start of the input. -/
def matchSummaryAt (s : Str) : Option SummaryCaptures :=
  (matchLit "statement-count=\"".toList s).bind fun s1 =>
  (captureWhile Char.isDigit s1).bind fun p1 =>
  (matchLit "\" statements-invoked=\"".toList p1.2).bind fun s2 =>
  (captureWhile notQuote s2).bind fun p2 =>
  (matchLit "\" statement-rate=\"".toList p2.2).bind fun s3 =>
  (captureWhile notQuote s3).bind fun p3 =>
  (matchLit "\" branch-rate=\"".toList p3.2).bind fun s4 =>
  (captureWhile notQuote s4).bind fun p4 =>
  (matchLit "\" version=\"1.0\"".toList p4.2).map fun _ =>
  ⟨p1.1, p2.1, p3.1, p4.1⟩

/-- `xml.match(summaryRegex)`: first position at which the summary regex
matches, scanning left to right. -/
def findSummaryMatch : Str → Option SummaryCaptures
  | [] => matchSummaryAt []
  | c :: t => matchSummaryAt (c :: t) <|> findSummaryMatch t

/-- The four captures of the per-unit class regex (line 74). -/
structure ClassCaptures where
  nameStr : Str
  filenameStr : Str
  statementCountStr : Str
  statementsInvokedStr : Str
deriving DecidableEq, Repr

/-- Attempt the class regex at the start of the input; on success also
return the rest of the input after the match. -/
def matchClassAt (s : Str) : Option (ClassCaptures × Str) :=
  (matchLit "name=\"".toList s).bind fun s1 =>
  (captureWhile notQuote s1).bind fun p1 =>
  (matchLit "\" filename=\"".toList p1.2).bind fun s2 =>
  (captureWhile notQuote s2).bind fun p2 =>
  (matchLit "\" statement-count=\"".toList p2.2).bind fun s3 =>
  (captureWhile notQuote s3).bind fun p3 =>
  (matchLit "\" statements-invoked=\"".toList p3.2).bind fun s4 =>
  (captureWhile notQuote s4).bind fun p4 =>
  (matchLit "\"".toList p4.2).map fun rest =>
  (⟨p1.1, p2.1, p3.1, p4.1⟩, rest)

/-- `xml.matchAll(classRegex)`, fuelled: at each step either the regex
matches (consuming at least the leading literal, hence at least one
character) or the scan advances one character, so `length + 1` units of
fuel always suffice. -/
def scanClassesAux : Nat → Str → List ClassCaptures
  | 0, _ => []
  | Nat.succ fuel, s =>
    match matchClassAt s with
    | some m => m.1 :: scanClassesAux fuel m.2
    | none =>
      match s with
      | [] => []
      | _ :: t => scanClassesAux fuel t

/-- All matches of the class regex, in document order. -/
def scanClasses (s : Str) : List ClassCaptures :=
  scanClassesAux (s.length + 1) s

/-- `ReportSummary` of the source (lines 6 to 9). -/
structure ReportSummary where
  statementRate : JsNum
  statementsTotal : JsNum
deriving DecidableEq, Repr

/-- `ReportClass` of the source (lines 11 to 16). -/
structure ReportClass where
  name : Str
  filename : Str
  statementsTotal : JsNum
  statementsInvoked : JsNum
deriving DecidableEq, Repr

/-- `ReportBucket` of the source (lines 18 to 21). -/
structure ReportBucket where
  summary : ReportSummary
  classes : List ReportClass
deriving DecidableEq, Repr

/-- `Report` of the source (lines 23 to 26). -/
structure Report where
  all : ReportBucket
  changed : ReportBucket
deriving DecidableEq, Repr

/-- The per-class mapping of `parseReport` (lines 78 to 88). -/
def mkReportClass (caps : ClassCaptures) : ReportClass :=
  { name := caps.nameStr
    filename := caps.filenameStr
    statementsTotal := parseIntJs caps.statementCountStr
    statementsInvoked := parseIntJs caps.statementsInvokedStr }

/-- `reduce((acc, c) => acc + c.statementsInvoked, 0)` (line 100). -/
def sumInvoked (cs : List ReportClass) : JsNum :=
  cs.foldl (fun acc c => acc.add c.statementsInvoked) (JsNum.num 0)

/-- `reduce((acc, c) => acc + c.statementsTotal, 0)` (lines 100 to 101). -/
def sumTotal (cs : List ReportClass) : JsNum :=
  cs.foldl (fun acc c => acc.add c.statementsTotal) (JsNum.num 0)

/-- The filter predicate of line 98:
`changedFiles.find(file => file.includes(classMatch.filename))` used as a
truthiness test. -/
def classIsChanged (changedFiles : List Str) (c : ReportClass) : Bool :=
  (changedFiles.find? (fun file => containsSubstr file c.filename)).isSome

/-- `parseReport` (lines 65 to 112), with the document text passed in
place of the file read.  The thrown `Error('unable to parse scoverage
summary')` is modelled as `Except.error`. -/
def parseReport (xml : Str) (changedFiles : List Str) : Except Str Report :=
  match findSummaryMatch xml with
  | none => Except.error "unable to parse scoverage summary".toList
  | some caps =>
    let allClasses := (scanClasses xml).map mkReportClass
    let allSummary : ReportSummary :=
      { statementRate := parseFloatJs caps.statementRateStr
        statementsTotal := parseIntJs caps.statementCountStr }
    let all : ReportBucket := { summary := allSummary, classes := allClasses }
    let changedClasses := allClasses.filter (classIsChanged changedFiles)
    let changedSummary : ReportSummary :=
      { statementRate :=
          ((sumInvoked changedClasses).div (sumTotal changedClasses)).mul (JsNum.num 100)
        statementsTotal := sumTotal changedClasses }
    let changed : ReportBucket := { summary := changedSummary, classes := changedClasses }
    Except.ok { all := all, changed := changed }

/-- The literal `'...'` appended on truncation (lines 129 to 132). -/
def dots : Str :=
  ['.', '.', '.']

/-- The reducer of lines 128 to 136. -/
def abbrevStep (acc next : Str) : Str :=
  if strEndsWith acc dots then acc
  else if (acc ++ '.' :: next).length > 80 - 3 then acc ++ dots
  else acc ++ '.' :: next

/-- JavaScript `String.prototype.split('.')`. -/
def splitDot : Str → List Str
  | [] => [[]]
  | c :: t =>
    if c = '.' then [] :: splitDot t
    else
      match splitDot t with
      | [] => [[c]]
      | p :: ps => (c :: p) :: ps

/-- Class-name abbreviation (lines 127 to 136): split on `.`, reverse,
then reduce over the tail starting from the innermost segment.
(`split` always returns a nonempty array, so the `[]` branch is dead.) -/
def classNameAbbreviated (name : Str) : Str :=
  match (splitDot name).reverse with
  | [] => []
  | seg0 :: rest => rest.foldl abbrevStep seg0

/-- `coverageRateIcon` (lines 185 to 193). -/
def coverageRateIcon (rate : JsNum) (thresholds : JsNum × JsNum) : Str :=
  if rate.jge thresholds.1 then ":green_circle:".toList
  else if rate.jge thresholds.2 then ":yellow_circle:".toList
  else ":red_circle:".toList

/-- Decimal digits of a natural number, fuelled (`n + 1` digits always
suffice). -/
def natDigitsAux : Nat → Nat → Str
  | 0, _ => []
  | Nat.succ fuel, n =>
    if n < 10 then [Char.ofNat (n + 48)]
    else natDigitsAux fuel (n / 10) ++ [Char.ofNat (n % 10 + 48)]

/-- Decimal representation of a natural number. -/
def natToStr (n : Nat) : Str :=
  natDigitsAux (n + 1) n

/-- Decimal representation of an integer. -/
def intToStr (i : ℤ) : Str :=
  if i < 0 then '-' :: natToStr i.natAbs else natToStr i.natAbs

/-- JavaScript template interpolation of a number as used by the action.
Every number the action interpolates directly is an integer, `NaN` or an
infinity, so only those are rendered exactly; the shortest-round-trip
algorithm for other doubles is not modelled (fallback: fraction form). -/
def jsNumToStr : JsNum → Str
  | JsNum.nan => "NaN".toList
  | JsNum.inf => "Infinity".toList
  | JsNum.ninf => "-Infinity".toList
  | JsNum.num q =>
    if q.den = 1 then intToStr q.num
    else intToStr q.num ++ '/' :: natToStr q.den

/-- JavaScript `Number.prototype.toFixed(1)`: round to one decimal, half
away from zero (binary-double rounding artifacts are not modelled). -/
def toFixed1 : JsNum → Str
  | JsNum.nan => "NaN".toList
  | JsNum.inf => "Infinity".toList
  | JsNum.ninf => "-Infinity".toList
  | JsNum.num q =>
    -- ⌊|q| * 10 + 1/2⌋ = ⌊(20 * |num| + den) / (2 * den)⌋, then restore the sign
    let scaledAbs : ℤ :=
      Rat.floor (Rat.divInt (20 * (q.num.natAbs : ℤ) + (q.den : ℤ)) (2 * (q.den : ℤ)))
    let scaled : ℤ := if q.num < 0 then -scaledAbs else scaledAbs
    (if scaled < 0 then ['-'] else [])
      ++ natToStr (scaled.natAbs / 10) ++ '.' :: natToStr (scaled.natAbs % 10)

/-- JavaScript `Math.round`: round half toward positive infinity;
`⌊q + 1/2⌋` written as a kernel-reducible fraction. -/
def jsRound : JsNum → JsNum
  | JsNum.num q => JsNum.num ((Rat.floor (Rat.divInt (2 * q.num + q.den) (2 * q.den)) : ℤ) : ℚ)
  | x => x

/-- The threshold pair `[0.8, 0.6]` passed to `coverageRateIcon` at both
call sites (lines 119 and 139). -/
def iconThresholds : JsNum × JsNum :=
  (JsNum.num (Rat.divInt 4 5), JsNum.num (Rat.divInt 3 5))

/-- One row of the per-class table (lines 126 to 141). -/
def renderClassRow (classResult : ReportClass) : Str :=
  let classNameAbbr := classNameAbbreviated classResult.name
  let statementCoverageRate := classResult.statementsInvoked.div classResult.statementsTotal
  let statementCoverageText :=
    toFixed1 (statementCoverageRate.mul (JsNum.num 100)) ++ "% (".toList
      ++ jsNumToStr classResult.statementsInvoked ++ "/".toList
      ++ jsNumToStr classResult.statementsTotal ++ ")".toList
  let statementCoverageIcon :=
    coverageRateIcon statementCoverageRate iconThresholds
  "| `".toList ++ classNameAbbr ++ "` | ".toList
    ++ statementCoverageIcon ++ " ".toList ++ statementCoverageText ++ " |\n".toList

/-- `renderBucket` (lines 116 to 144). -/
def renderBucket (title : Str) (bucket : ReportBucket) : Str :=
  let summaryStatementCoverageRate := bucket.summary.statementRate.div (JsNum.num 100)
  let summaryStatementCoverage :=
    toFixed1 (summaryStatementCoverageRate.mul (JsNum.num 100)) ++ "% (".toList
      ++ jsNumToStr (jsRound ((bucket.summary.statementRate.div (JsNum.num 100)).mul
            bucket.summary.statementsTotal)) ++ "/".toList
      ++ jsNumToStr bucket.summary.statementsTotal ++ ")".toList
  let summaryStatementCoverageIcon :=
    coverageRateIcon summaryStatementCoverageRate iconThresholds
  "<details>\n".toList
    ++ "<summary>".toList ++ title ++ " ".toList ++ summaryStatementCoverageIcon
      ++ " ".toList ++ summaryStatementCoverage ++ "</summary>\n".toList
    ++ "\n".toList
    ++ "| Class | Statement coverage |\n".toList
    ++ "|---|---|\n".toList
    ++ bucket.classes.foldl (fun acc classResult => acc ++ renderClassRow classResult) []
    ++ "\n".toList
    ++ "</details>\n".toList

/-- `renderCommentMarkdown` (lines 114 to 153). -/
def renderCommentMarkdown (report : Report) : Str :=
  let result : Str := []
  let result :=
    if report.all.summary.statementRate.isFinite then
      result ++ renderBucket "All files".toList report.all
    else result
  let result :=
    if report.changed.summary.statementRate.isFinite then
      result ++ renderBucket "Changed files".toList report.changed
    else result
  result

/-- One issue comment as seen through the comment-store API (`id` plus an
optional `body`, as in the endpoint's response type). -/
structure IssueComment where
  id : Nat
  body : Option Str
deriving DecidableEq, Repr

/-- The fixed marker string of line 156. -/
def commentTag : Str :=
  "<!-- airfocusio/github-action-scoverage-pull-request-comment \"\" -->".toList

/-- The search predicate of line 163:
`comment?.body?.includes(commentTag)` under JavaScript truthiness. -/
def commentHasTag (comment : IssueComment) : Bool :=
  match comment.body with
  | some b => containsSubstr b commentTag
  | none => false

/-- The single comment-store mutation performed by one run of
`createOrUpdateIssueComment`. -/
inductive CommentApiCall where
  | update (commentId : Nat) (body : Str)
  | create (issueNumber : Nat) (body : Str)
deriving DecidableEq, Repr

/-- The pagination loop of lines 158 to 168: walk the pages in order and
stop at the first page holding a tagged comment, taking the first tagged
comment of that page. -/
def findTaggedComment : List (List IssueComment) → Option IssueComment
  | [] => none
  | page :: rest =>
    match page.find? commentHasTag with
    | some c => some c
    | none => findTaggedComment rest

/-- `createOrUpdateIssueComment` (lines 155 to 183), with the comment
store's pages passed in place of the paginated API; returns the one
mutation the function performs. -/
def createOrUpdateIssueComment (pages : List (List IssueComment))
    (issueNumber : Nat) (body : Str) : CommentApiCall :=
  match findTaggedComment pages with
  | some existingComment =>
    CommentApiCall.update existingComment.id (body ++ "\n\n".toList ++ commentTag)
  | none =>
    CommentApiCall.create issueNumber (body ++ "\n\n".toList ++ commentTag)


/-- The tail of a dot-join: every piece prefixed by `'.'`. -/
def dotTail (ps : List Str) : Str :=
  (ps.map (fun q => '.' :: q)).flatten

/-- Join pieces with `'.'` (left inverse of `splitDot`). -/
def joinDot : List Str → Str
  | [] => []
  | p :: ps => p ++ dotTail ps

/-- The abbreviation loop as worded by the specification: greedily append
segments each prefixed by `'.'` while the total stays within 77
characters; as soon as a segment would exceed the limit, append a literal
`'...'` and stop. -/
def abbrevClaimGo (acc : Str) : List Str → Str
  | [] => acc
  | next :: rest =>
    if (acc ++ '.' :: next).length > 77 then acc ++ dots
    else abbrevClaimGo (acc ++ '.' :: next) rest

/-- The specification's abbreviation algorithm read literally: keep the
innermost segment, then append the remaining segments outer to inner. -/
def abbrevClaimOuterToInner (name : Str) : Str :=
  match (splitDot name).reverse with
  | [] => []
  | seg0 :: rest => abbrevClaimGo seg0 rest.reverse

/-- The amended abbreviation algorithm: keep the innermost segment, then
append the remaining segments inner to outer (second-innermost first),
each prefixed by `'.'`, while the total stays within 77 characters;
append `'...'` and stop as soon as a segment would exceed the limit, and
also append nothing further once the accumulated name ends in `'...'`. -/
def abbrevAmendedGo (acc : Str) : List Str → Str
  | [] => acc
  | next :: rest =>
    if strEndsWith acc dots then acc
    else if (acc ++ '.' :: next).length > 77 then acc ++ dots
    else abbrevAmendedGo (acc ++ '.' :: next) rest

/-- The amended abbreviation algorithm over a full qualified name. -/
def abbrevAmended (name : Str) : Str :=
  match (splitDot name).reverse with
  | [] => []
  | seg0 :: rest => abbrevAmendedGo seg0 rest

/-- Rank of the icon emitted for a rate: red 0, yellow 1, green 2. -/
def iconRank (rate : JsNum) : Nat :=
  if coverageRateIcon rate iconThresholds = ":green_circle:".toList then 2
  else if coverageRateIcon rate iconThresholds = ":yellow_circle:".toList then 1
  else 0

/-! ## Concrete sample inputs used to instantiate the theorems -/

/-- A minimal well-formed report document with one class record. -/
def xmlSample : Str :=
  ("statement-count=\"10\" statements-invoked=\"5\" statement-rate=\"50.0\""
    ++ " branch-rate=\"1.0\" version=\"1.0\""
    ++ " name=\"a.B\" filename=\"a/B.scala\" statement-count=\"10\""
    ++ " statements-invoked=\"5\"").toList

/-- A changed-file list whose single path contains the sample record's
filename as a proper substring. -/
def cfSample : List Str :=
  ["src/a/B.scala".toList]

/-- The record parsed out of `xmlSample`. -/
def classSample : ReportClass :=
  { name := "a.B".toList
    filename := "a/B.scala".toList
    statementsTotal := JsNum.num 10
    statementsInvoked := JsNum.num 5 }

/-- The report parsed out of `xmlSample` against `cfSample`. -/
def rSample : Report :=
  { all :=
      { summary := { statementRate := JsNum.num 50, statementsTotal := JsNum.num 10 }
        classes := [classSample] }
    changed :=
      { summary := { statementRate := JsNum.num 50, statementsTotal := JsNum.num 10 }
        classes := [classSample] } }

/-- A document without the summary marker. -/
def xmlNoSummary : Str :=
  "<scoverage></scoverage>".toList

/-- A document whose summary marker carries a malformed statement rate and
whose class record carries a malformed statement count. -/
def xmlBadRate : Str :=
  ("statement-count=\"100\" statements-invoked=\"80\" statement-rate=\"oops\""
    ++ " branch-rate=\"1.0\" version=\"1.0\""
    ++ " name=\"a.B\" filename=\"a/B.scala\" statement-count=\"xx\""
    ++ " statements-invoked=\"5\"").toList

/-- The summary captures of `xmlBadRate`. -/
def capsBadRate : SummaryCaptures :=
  { statementCountStr := "100".toList
    statementsInvokedStr := "80".toList
    statementRateStr := "oops".toList
    branchRateStr := "1.0".toList }

/-- A well-formed document whose single class record has zero statements. -/
def xmlZeroTotal : Str :=
  ("statement-count=\"7\" statements-invoked=\"3\" statement-rate=\"42.9\""
    ++ " branch-rate=\"1.0\" version=\"1.0\""
    ++ " name=\"a.B\" filename=\"a/B.scala\" statement-count=\"0\""
    ++ " statements-invoked=\"0\"").toList

/-- The report parsed out of `xmlZeroTotal` against `cfSample`: the changed
bucket is nonempty but its statement total sums to zero, so its rate is
`NaN`. -/
def rZeroTotal : Report :=
  { all :=
      { summary :=
          { statementRate := JsNum.num (Rat.divInt 429 10), statementsTotal := JsNum.num 7 }
        classes :=
          [{ name := "a.B".toList
             filename := "a/B.scala".toList
             statementsTotal := JsNum.num 0
             statementsInvoked := JsNum.num 0 }] }
    changed :=
      { summary := { statementRate := JsNum.nan, statementsTotal := JsNum.num 0 }
        classes :=
          [{ name := "a.B".toList
             filename := "a/B.scala".toList
             statementsTotal := JsNum.num 0
             statementsInvoked := JsNum.num 0 }] } }

/-- A report whose all bucket is finite and whose changed bucket has a
`NaN` rate. -/
def rMixed : Report :=
  { all :=
      { summary := { statementRate := JsNum.num 80, statementsTotal := JsNum.num 100 }
        classes := [] }
    changed :=
      { summary := { statementRate := JsNum.nan, statementsTotal := JsNum.num 0 }
        classes := [] } }


/-- Decidable equality for `Except`, so concrete runs of `parseReport` can
be checked by `decide`. -/
instance {ε α : Type} [DecidableEq ε] [DecidableEq α] : DecidableEq (Except ε α) := fun x y =>
  match x, y with
  | Except.error a, Except.error b =>
    if h : a = b then Decidable.isTrue (by rw [h])
    else Decidable.isFalse (fun hc => by cases hc; exact h rfl)
  | Except.ok a, Except.ok b =>
    if h : a = b then Decidable.isTrue (by rw [h])
    else Decidable.isFalse (fun hc => by cases hc; exact h rfl)
  | Except.error _, Except.ok _ => Decidable.isFalse (fun hc => by cases hc)
  | Except.ok _, Except.error _ => Decidable.isFalse (fun hc => by cases hc)


/-- A document holding only the summary marker and no class records. -/
def xmlOnlySummary : Str :=
  ("statement-count=\"10\" statements-invoked=\"5\" statement-rate=\"50.0\""
    ++ " branch-rate=\"1.0\" version=\"1.0\"").toList

/-- The report parsed out of `xmlOnlySummary`: both record lists are empty
and the changed rate is `NaN`. -/
def rOnlySummary : Report :=
  { all :=
      { summary := { statementRate := JsNum.num 50, statementsTotal := JsNum.num 10 }
        classes := [] }
    changed :=
      { summary := { statementRate := JsNum.nan, statementsTotal := JsNum.num 0 }
        classes := [] } }

set_option maxRecDepth 10000

/-! ## Auxiliary lemmas -/

theorem isPrefixOf_correct (n h : Str) : n.isPrefixOf h = true ↔ ∃ t, h = n ++ t := by
  rw [ List.isPrefixOf_iff_prefix]
  constructor
  · rintro ⟨t, rfl⟩
    exact ⟨t, rfl⟩
  · rintro ⟨t, rfl⟩
    exact ⟨t, rfl⟩

theorem isSuffixOf_correct (n h : Str) : n.isSuffixOf h = true ↔ ∃ t, h = t ++ n := by
  rw [ List.isSuffixOf_iff_suffix]
  constructor
  · rintro ⟨t, rfl⟩
    exact ⟨t, rfl⟩
  · rintro ⟨t, rfl⟩
    exact ⟨t, rfl⟩

theorem containsSubstr_correct (hay needle : Str) :
    containsSubstr hay needle = true ↔ ∃ pre suf, hay = pre ++ needle ++ suf := by
  induction hay with
  | nil =>
    rw [containsSubstr]
    simp only [Bool.or_false, isPrefixOf_correct]
    constructor
    · rintro ⟨t, ht⟩
      exact ⟨[], t, ht⟩
    · rintro ⟨pre, suf, h⟩
      rcases List.append_eq_nil.mp (List.append_eq_nil.mp h.symm).1 with ⟨h1, h2⟩
      exact ⟨suf, by simp [h1, h2] at h ⊢; exact h⟩
  | cons c t ih =>
    rw [containsSubstr]
    simp only [Bool.or_eq_true, isPrefixOf_correct, ih]
    constructor
    · rintro (⟨u, hu⟩ | ⟨pre, suf, h⟩)
      · exact ⟨[], u, by simpa using hu⟩
      · exact ⟨c :: pre, suf, by simp [h]⟩
    · rintro ⟨pre, suf, h⟩
      cases pre with
      | nil => exact Or.inl ⟨suf, by simpa using h⟩
      | cons p ps =>
        right
        simp only [List.cons_append, List.cons.injEq] at h
        exact ⟨ps, suf, h.2⟩

theorem strEndsWith_correct (s t : Str) : strEndsWith s t = true ↔ ∃ u, s = u ++ t := by
  rw [strEndsWith]
  exact isSuffixOf_correct t s

theorem strEndsWith_append_dots (x : Str) : strEndsWith (x ++ dots) dots = true :=
  (strEndsWith_correct (x ++ dots) dots).mpr ⟨x, rfl⟩

theorem mem_of_getLast?_eq : ∀ (l : Str) (c : Char), l.getLast? = some c → c ∈ l
  | [], c, h => by simp at h
  | [a], c, h => by
    simp only [List.getLast?_singleton, Option.some.injEq] at h
    simp [h]
  | a :: b :: t, c, h => by
    rw [List.getLast?_cons_cons] at h
    exact List.mem_cons_of_mem a (mem_of_getLast?_eq (b :: t) c h)

theorem not_endsWith_dots_of_getLast (s : Str) (h : s.getLast? ≠ some '.') :
    strEndsWith s dots = false := by
  rw [Bool.eq_false_iff]
  intro htrue
  obtain ⟨u, rfl⟩ := (strEndsWith_correct s dots).mp htrue
  apply h
  rw [List.getLast?_append_of_ne_nil u (by simp [dots])]
  rfl

theorem getLast?_ne_dot_of_not_mem (s : Str) (h : '.' ∉ s) :
    s.getLast? ≠ some '.' := by
  intro hl
  exact h (mem_of_getLast?_eq s '.' hl)

theorem ratMul_comm (a b : ℚ) : ratMul a b = ratMul b a := by
  rw [ratMul, ratMul]
  ring_nf

theorem jsMul_comm (a b : JsNum) : a.mul b = b.mul a := by
  cases a <;> cases b <;> first
    | rfl
    | (simp only [JsNum.mul]; rw [ratMul_comm])

theorem div_zero_mul_hundred_not_finite (x : JsNum) :
    ((x.div (JsNum.num 0)).mul (JsNum.num 100)).isFinite = false := by
  have h100 : (0 : ℚ) < 100 := by norm_num
  cases x with
  | num q =>
    rcases lt_trichotomy q 0 with h | h | h
    · simp [JsNum.div, JsNum.mul, JsNum.isFinite, h, h.not_lt, h100]
    · simp [JsNum.div, JsNum.mul, JsNum.isFinite, h]
    · simp [JsNum.div, JsNum.mul, JsNum.isFinite, h, h.not_lt, h100]
  | nan => decide
  | inf => decide
  | ninf => decide

/-- Shape of `parseReport`: it fails exactly when the summary regex finds
no match, and otherwise returns the report built from the captures, the
scanned class matches, and the filtered changed bucket. -/
theorem parseReport_shape (xml : Str) (cf : List Str) :
    (findSummaryMatch xml = none ∧
      parseReport xml cf = Except.error "unable to parse scoverage summary".toList)
    ∨ ∃ caps, findSummaryMatch xml = some caps ∧
        parseReport xml cf = Except.ok
          { all :=
              { summary :=
                  { statementRate := parseFloatJs caps.statementRateStr
                    statementsTotal := parseIntJs caps.statementCountStr }
                classes := (scanClasses xml).map mkReportClass }
            changed :=
              { summary :=
                  { statementRate :=
                      ((sumInvoked (((scanClasses xml).map mkReportClass).filter
                          (classIsChanged cf))).div
                        (sumTotal (((scanClasses xml).map mkReportClass).filter
                          (classIsChanged cf)))).mul (JsNum.num 100)
                    statementsTotal :=
                      sumTotal (((scanClasses xml).map mkReportClass).filter
                        (classIsChanged cf)) }
                classes := ((scanClasses xml).map mkReportClass).filter (classIsChanged cf) } } := by
  cases h : findSummaryMatch xml with
  | none =>
    left
    refine ⟨rfl, ?_⟩
    rw [parseReport, h]
  | some caps =>
    right
    refine ⟨caps, rfl, ?_⟩
    rw [parseReport, h]

/-! ## Claim theorems -/

/-- C1: For every parsed report and changed-file list, the changed
bucket's summary is recomputed from the filtered records, not copied: its
`statementsTotal` equals the sum of `statementsTotal` over exactly the
filtered records, and its `statementRate` equals
`100 * (sum of statementsInvoked) / (sum of statementsTotal)` over those
same records. -/
theorem changed_bucket_recomputed (xml : Str) (cf : List Str) (r : Report)
    (h : parseReport xml cf = Except.ok r) :
    r.changed.classes = r.all.classes.filter (classIsChanged cf)
    ∧ r.changed.summary.statementsTotal
        = sumTotal (r.all.classes.filter (classIsChanged cf))
    ∧ r.changed.summary.statementRate =
        (JsNum.num 100).mul
          ((sumInvoked (r.all.classes.filter (classIsChanged cf))).div
            (sumTotal (r.all.classes.filter (classIsChanged cf)))) := by
  rcases parseReport_shape xml cf with ⟨_, he⟩ | ⟨caps, _, he⟩
  · rw [he] at h
    cases h
  · rw [he] at h
    cases h
    exact ⟨rfl, rfl, jsMul_comm _ _⟩

/-- Instantiation of C1 at `xmlSample` and `cfSample`. -/
theorem changed_bucket_recomputed_witness :
    rSample.changed.summary.statementsTotal
        = sumTotal (rSample.all.classes.filter (classIsChanged cfSample))
    ∧ rSample.changed.summary.statementRate =
        (JsNum.num 100).mul
          ((sumInvoked (rSample.all.classes.filter (classIsChanged cfSample))).div
            (sumTotal (rSample.all.classes.filter (classIsChanged cfSample)))) :=
  (changed_bucket_recomputed xmlSample cfSample rSample (by decide)).2

/-- C2: `parseReport` raises an error if and only if the document-level
summary marker cannot be located in the document text; in particular,
zero per-unit marker matches is valid and yields an empty record list
rather than an error. -/
theorem parse_error_iff_no_summary_marker (xml : Str) (cf : List Str) :
    ((parseReport xml cf).isOk = false ↔ findSummaryMatch xml = none)
    ∧ (∀ r, parseReport xml cf = Except.ok r →
        r.all.classes = (scanClasses xml).map mkReportClass
        ∧ (scanClasses xml = [] → r.all.classes = [] ∧ r.changed.classes = [])) := by
  rcases parseReport_shape xml cf with ⟨hn, he⟩ | ⟨caps, hs, he⟩
  · refine ⟨?_, ?_⟩
    · rw [he]
      simp [Except.isOk, Except.toBool, hn]
    · intro r hr
      rw [he] at hr
      cases hr
  · refine ⟨?_, ?_⟩
    · rw [he]
      simp [Except.isOk, Except.toBool, hs]
    · intro r hr
      rw [he] at hr
      cases hr
      refine ⟨rfl, fun hsc => ?_⟩
      simp [hsc]

/-- Instantiation of C2: a document without the marker fails, and a
document with the marker but zero per-unit matches yields empty record
lists. -/
theorem parse_error_iff_no_summary_marker_witness :
    (parseReport xmlNoSummary []).isOk = false
    ∧ rOnlySummary.all.classes = []
    ∧ rOnlySummary.changed.classes = [] :=
  ⟨(parse_error_iff_no_summary_marker xmlNoSummary []).1.mpr (by decide),
   ((parse_error_iff_no_summary_marker xmlOnlySummary []).2 rOnlySummary (by decide)).2
     (by decide)⟩

theorem renderBucket_ne_nil (title : Str) (bucket : ReportBucket) :
    renderBucket title bucket ≠ [] := by
  have hd : "<details>\n".toList = '<' :: "details>\n".toList := rfl
  simp only [renderBucket, hd, List.cons_append]
  exact fun h => List.noConfusion h

theorem renderCommentMarkdown_eq (r : Report) :
    renderCommentMarkdown r =
      (if r.all.summary.statementRate.isFinite then renderBucket "All files".toList r.all
       else [])
      ++ (if r.changed.summary.statementRate.isFinite then
            renderBucket "Changed files".toList r.changed
          else []) := by
  rw [renderCommentMarkdown]
  cases hA : r.all.summary.statementRate.isFinite <;>
    cases hC : r.changed.summary.statementRate.isFinite <;> simp [hA, hC]

/-- C3: the renderer emits a section for a bucket if and only if that
bucket's summary rate is finite, in the fixed order All files then
Changed files; the output is empty exactly when neither rate is finite,
and a non-finite changed rate omits only the Changed files section. -/
theorem render_sections_iff_finite (r : Report) :
    (renderCommentMarkdown r = [] ↔
      (r.all.summary.statementRate.isFinite = false
        ∧ r.changed.summary.statementRate.isFinite = false))
    ∧ (r.all.summary.statementRate.isFinite = true →
        r.changed.summary.statementRate.isFinite = true →
        renderCommentMarkdown r
          = renderBucket "All files".toList r.all
            ++ renderBucket "Changed files".toList r.changed)
    ∧ (r.all.summary.statementRate.isFinite = true →
        r.changed.summary.statementRate.isFinite = false →
        renderCommentMarkdown r = renderBucket "All files".toList r.all)
    ∧ (r.all.summary.statementRate.isFinite = false →
        r.changed.summary.statementRate.isFinite = true →
        renderCommentMarkdown r = renderBucket "Changed files".toList r.changed) := by
  have heq := renderCommentMarkdown_eq r
  cases hA : r.all.summary.statementRate.isFinite <;>
    cases hC : r.changed.summary.statementRate.isFinite <;>
      rw [hA, hC] at heq <;>
      simp at heq <;>
      refine ⟨?_, ?_, ?_, ?_⟩ <;>
      simp [heq, hA, hC, renderBucket_ne_nil]

/-- Instantiation of C3 at a report with a finite all rate and a `NaN`
changed rate: only the All files section is rendered. -/
theorem render_sections_iff_finite_witness :
    renderCommentMarkdown rMixed = renderBucket "All files".toList rMixed.all :=
  (render_sections_iff_finite rMixed).2.2.1 rfl rfl

/-- C4: a record is placed in the changed bucket if and only if at least
one changed file path contains the record's filename as a contiguous
substring (not path equality and not prefix-only matching). -/
theorem changed_membership_iff (xml : Str) (cf : List Str) (r : Report) (c : ReportClass)
    (h : parseReport xml cf = Except.ok r) :
    c ∈ r.changed.classes ↔
      c ∈ r.all.classes ∧ ∃ f ∈ cf, ∃ pre suf, f = pre ++ c.filename ++ suf := by
  rcases parseReport_shape xml cf with ⟨_, he⟩ | ⟨caps, _, he⟩
  · rw [he] at h
    cases h
  · rw [he] at h
    cases h
    show c ∈ List.filter (classIsChanged cf) _ ↔ _
    rw [List.mem_filter]
    apply and_congr_right
    intro _
    rw [classIsChanged]
    constructor
    · intro hp
      obtain ⟨f, hf, hcont⟩ := List.find?_isSome.mp hp
      exact ⟨f, hf, (containsSubstr_correct f c.filename).mp hcont⟩
    · rintro ⟨f, hf, hex⟩
      exact List.find?_isSome.mpr ⟨f, hf, (containsSubstr_correct f c.filename).mpr hex⟩

/-- Instantiation of C4: the sample record lands in the changed bucket
because `src/a/B.scala` contains `a/B.scala` as a substring. -/
theorem changed_membership_iff_witness :
    classSample ∈ rSample.changed.classes :=
  (changed_membership_iff xmlSample cfSample rSample classSample (by decide)).mpr
    ⟨by decide, "src/a/B.scala".toList, by decide, "src/".toList, [], by decide⟩

theorem findTaggedComment_eq (pages : List (List IssueComment)) :
    findTaggedComment pages = pages.flatten.find? commentHasTag := by
  induction pages with
  | nil => rfl
  | cons page rest ih =>
    rw [findTaggedComment, List.flatten_cons, List.find?_append, ih]
    cases h : page.find? commentHasTag <;> simp [h, Option.or]

/-- C5: the upsert protocol scans the comment pages in order and stops at
the first comment whose body contains the marker; if one exists the single
mutation is an update targeting that comment's id, otherwise it is a
create; in both cases the published body ends with the marker. -/
theorem upsert_protocol (pages : List (List IssueComment)) (issueNumber : Nat) (body : Str) :
    createOrUpdateIssueComment pages issueNumber body =
      (match pages.flatten.find? commentHasTag with
       | some c => CommentApiCall.update c.id (body ++ "\n\n".toList ++ commentTag)
       | none => CommentApiCall.create issueNumber (body ++ "\n\n".toList ++ commentTag))
    ∧ strEndsWith (body ++ "\n\n".toList ++ commentTag) commentTag = true := by
  refine ⟨?_, ?_⟩
  · rw [createOrUpdateIssueComment, findTaggedComment_eq]
  · exact (strEndsWith_correct _ _).mpr ⟨body ++ "\n\n".toList, by rw [List.append_assoc]⟩

theorem abbrevStep_of_endsWith (acc next : Str) (h : strEndsWith acc dots = true) :
    abbrevStep acc next = acc := by
  rw [abbrevStep, if_pos h]

theorem foldl_abbrevStep_const (l : List Str) (acc : Str) (h : strEndsWith acc dots = true) :
    l.foldl abbrevStep acc = acc := by
  induction l with
  | nil => rfl
  | cons x l ih => rw [List.foldl_cons, abbrevStep_of_endsWith acc x h]; exact ih

/-- C6 counterexample: on `aa.bb.cc` the code's abbreviation (inner to
outer: `cc.bb.aa`) differs from the claim's outer-to-inner append order
(`cc.aa.bb`). -/
theorem abbrev_outer_to_inner_refuted :
    abbrevClaimOuterToInner "aa.bb.cc".toList ≠ classNameAbbreviated "aa.bb.cc".toList := by
  decide

theorem abbrevAmendedGo_eq_foldl (rest : List Str) :
    ∀ acc, rest.foldl abbrevStep acc = abbrevAmendedGo acc rest := by
  induction rest with
  | nil =>
    intro acc
    rfl
  | cons next rest ih =>
    intro acc
    rw [List.foldl_cons, abbrevAmendedGo]
    by_cases h1 : strEndsWith acc dots = true
    · rw [if_pos h1, abbrevStep_of_endsWith acc next h1, foldl_abbrevStep_const rest acc h1]
    · rw [if_neg h1]
      by_cases h2 : (acc ++ '.' :: next).length > 77
      · rw [if_pos h2]
        have hstep : abbrevStep acc next = acc ++ dots := by
          rw [abbrevStep, if_neg h1, if_pos h2]
        rw [hstep, foldl_abbrevStep_const rest _ (strEndsWith_append_dots acc)]
      · rw [if_neg h2]
        have hstep : abbrevStep acc next = acc ++ '.' :: next := by
          rw [abbrevStep, if_neg h1, if_neg h2]
        rw [hstep, ih]

/-- C6 amended: the rendered class-name abbreviation keeps the innermost
segment, then greedily appends the remaining segments inner to outer
(second-innermost first), each prefixed by `'.'`, while the total stays
within 77 characters, appends a literal `'...'` and stops as soon as a
segment would exceed that limit, and appends nothing further once the
accumulated name ends in `'...'`. -/
theorem abbrev_equals_amended_spec (name : Str) :
    classNameAbbreviated name = abbrevAmended name := by
  rw [classNameAbbreviated, abbrevAmended]
  cases h : (splitDot name).reverse with
  | nil => rfl
  | cons seg0 rest => exact abbrevAmendedGo_eq_foldl rest seg0

theorem divInt_four_fifths : Rat.divInt 4 5 = 4 / 5 := by
  rw [Rat.divInt_eq_div]
  norm_num

theorem divInt_three_fifths : Rat.divInt 3 5 = 3 / 5 := by
  rw [Rat.divInt_eq_div]
  norm_num

theorem coverageRateIcon_num (q : ℚ) :
    coverageRateIcon (JsNum.num q) iconThresholds =
      (if 4 / 5 ≤ q then ":green_circle:".toList
       else if 3 / 5 ≤ q then ":yellow_circle:".toList
       else ":red_circle:".toList) := by
  simp only [coverageRateIcon, iconThresholds, JsNum.jge, divInt_four_fifths,
    divInt_three_fifths, ge_iff_le, decide_eq_true_eq]

/-- C8: for every rate the icon mapping assigns exactly one of green,
yellow, red: green iff rate ≥ 0.8, yellow iff 0.6 ≤ rate < 0.8, red iff
rate < 0.6; `NaN` (failing both comparisons) maps to red; and the mapping
is a monotone step function of the rate with boundaries 0.8 and 0.6
inclusive on the upper side. -/
theorem coverage_icon_characterization :
    (∀ rate : JsNum,
        coverageRateIcon rate iconThresholds = ":green_circle:".toList
        ∨ coverageRateIcon rate iconThresholds = ":yellow_circle:".toList
        ∨ coverageRateIcon rate iconThresholds = ":red_circle:".toList)
    ∧ (∀ q : ℚ,
        (coverageRateIcon (JsNum.num q) iconThresholds = ":green_circle:".toList ↔ 4 / 5 ≤ q)
        ∧ (coverageRateIcon (JsNum.num q) iconThresholds = ":yellow_circle:".toList ↔
            3 / 5 ≤ q ∧ q < 4 / 5)
        ∧ (coverageRateIcon (JsNum.num q) iconThresholds = ":red_circle:".toList ↔ q < 3 / 5))
    ∧ coverageRateIcon JsNum.nan iconThresholds = ":red_circle:".toList
    ∧ (∀ q r : ℚ, q ≤ r → iconRank (JsNum.num q) ≤ iconRank (JsNum.num r)) := by
  have hgy : (":green_circle:".toList : Str) ≠ ":yellow_circle:".toList := by decide
  have hgr : (":green_circle:".toList : Str) ≠ ":red_circle:".toList := by decide
  have hyr : (":yellow_circle:".toList : Str) ≠ ":red_circle:".toList := by decide
  refine ⟨?_, ?_, by decide, ?_⟩
  · intro rate
    cases rate with
    | num q =>
      rw [coverageRateIcon_num]
      by_cases h1 : 4 / 5 ≤ q
      · simp [h1]
      · by_cases h2 : 3 / 5 ≤ q
        · simp [h1, h2]
        · simp [h1, h2]
    | nan => decide
    | inf => decide
    | ninf => decide
  · intro q
    rw [coverageRateIcon_num]
    by_cases h1 : 4 / 5 ≤ q
    · have h2 : 3 / 5 ≤ q := by linarith
      have h3 : ¬q < 4 / 5 := not_lt.mpr h1
      have h4 : ¬q < 3 / 5 := not_lt.mpr h2
      simp [h1, h2, h3, h4, hgy, hgr]
    · by_cases h2 : 3 / 5 ≤ q
      · have h3 : q < 4 / 5 := not_le.mp h1
        have h4 : ¬q < 3 / 5 := not_lt.mpr h2
        simp [h1, h2, h3, h4, hgy, hyr, hgy.symm]
      · have h3 : q < 3 / 5 := not_le.mp h2
        simp [h1, h2, h3, hgr.symm, hyr.symm]
  · intro q r hqr
    rw [iconRank, iconRank, coverageRateIcon_num q, coverageRateIcon_num r]
    by_cases h1 : 4 / 5 ≤ q
    · have h2 : 4 / 5 ≤ r := le_trans h1 hqr
      simp [h1, h2]
    · by_cases h2 : 3 / 5 ≤ q
      · have h3 : 3 / 5 ≤ r := le_trans h2 hqr
        by_cases h4 : 4 / 5 ≤ r
        · simp [h1, h2, h3, h4, hgy]
        · simp [h1, h2, h3, h4, hgy, hgy.symm]
      · by_cases h4 : 4 / 5 ≤ r
        · simp [h1, h2, h4, hgy, hgr, hgy.symm, hgr.symm]
        · by_cases h5 : 3 / 5 ≤ r
          · simp [h1, h2, h4, h5, hgy.symm, hyr.symm, hgy, hyr]
          · simp [h1, h2, h4, h5, hgy.symm, hyr.symm, hgr.symm]

/-- Instantiation of C8's monotonicity at rates 1/2 and 9/10. -/
theorem coverage_icon_characterization_witness :
    iconRank (JsNum.num (Rat.divInt 1 2)) ≤ iconRank (JsNum.num (Rat.divInt 9 10)) :=
  coverage_icon_characterization.2.2.2 (Rat.divInt 1 2) (Rat.divInt 9 10) (by decide)

theorem captureWhile_spec (p : Char → Bool) (s : Str) (pr : Str × Str)
    (h : captureWhile p s = some pr) :
    pr.1 = s.takeWhile p ∧ pr.1 ≠ [] ∧ pr.1.all p = true := by
  simp only [captureWhile] at h
  split at h
  · exact absurd h (by simp)
  · next hne =>
    cases h
    refine ⟨rfl, ?_, List.all_takeWhile⟩
    intro hnil
    apply hne
    simp_all

theorem matchSummaryAt_count_digits (s : Str) (caps : SummaryCaptures)
    (h : matchSummaryAt s = some caps) :
    caps.statementCountStr ≠ [] ∧ caps.statementCountStr.all Char.isDigit = true := by
  rw [matchSummaryAt] at h
  simp only [Option.bind_eq_some, Option.map_eq_some'] at h
  obtain ⟨s1, h1, p1, h2, s2, h3, p2, h4, s3, h5, p3, h6, s4, h7, p4, h8, s5, h9, hcaps⟩ := h
  obtain ⟨_, hne, hall⟩ := captureWhile_spec Char.isDigit s1 p1 h2
  rw [← hcaps]
  exact ⟨hne, hall⟩

theorem findSummaryMatch_count_digits (xml : Str) (caps : SummaryCaptures)
    (h : findSummaryMatch xml = some caps) :
    caps.statementCountStr ≠ [] ∧ caps.statementCountStr.all Char.isDigit = true := by
  induction xml with
  | nil => exact matchSummaryAt_count_digits [] caps (by simpa [findSummaryMatch] using h)
  | cons c t ih =>
    rw [findSummaryMatch] at h
    rcases (Option.orElse_eq_some _ _ _).mp h with h1 | ⟨_, h2⟩
    · exact matchSummaryAt_count_digits _ caps h1
    · exact ih h2

theorem digit_not_ws (c : Char) (hc : c.isDigit = true) : isJsWhitespace c = false := by
  rw [isJsWhitespace]
  simp only [Bool.or_eq_false_iff, decide_eq_false_iff_not]
  refine ⟨⟨⟨?_, ?_⟩, ?_⟩, ?_⟩ <;> intro h <;> subst h <;> simp at hc

theorem splitSign_other (c : Char) (t : Str) (h1 : c ≠ '-') (h2 : c ≠ '+') :
    splitSign (c :: t) = (false, c :: t) := by
  rw [splitSign.eq_def]
  split
  · next heq =>
    rw [List.cons.injEq] at heq
    exact absurd heq.1 h1
  · next heq =>
    rw [List.cons.injEq] at heq
    exact absurd heq.1 h2
  · rfl

theorem takeWhile_eq_self_of_all (p : Char → Bool) : ∀ l : Str, l.all p = true → l.takeWhile p = l
  | [], _ => rfl
  | c :: t, h => by
    rw [List.all_cons, Bool.and_eq_true] at h
    rw [List.takeWhile_cons, h.1]
    simp [takeWhile_eq_self_of_all p t h.2]

theorem parseIntJs_digits (ds : Str) (hne : ds ≠ []) (hall : ds.all Char.isDigit = true) :
    parseIntJs ds = JsNum.num (digitsToNat ds) := by
  obtain ⟨c, t, rfl⟩ : ∃ c t, ds = c :: t := by
    cases ds with
    | nil => exact absurd rfl hne
    | cons c t => exact ⟨c, t, rfl⟩
  rw [List.all_cons, Bool.and_eq_true] at hall
  have hc : c.isDigit = true := hall.1
  have hminus : c ≠ '-' := fun h => by subst h; simp at hc
  have hplus : c ≠ '+' := fun h => by subst h; simp at hc
  have hdrop : (c :: t).dropWhile isJsWhitespace = c :: t := by
    rw [List.dropWhile_cons, digit_not_ws c hc]
    simp
  have htake : (c :: t).takeWhile Char.isDigit = c :: t :=
    takeWhile_eq_self_of_all Char.isDigit (c :: t)
      (by rw [List.all_cons, Bool.and_eq_true]; exact hall)
  rw [parseIntJs]
  simp only [hdrop, splitSign_other c t hminus hplus, htake, List.isEmpty_cons,
    Bool.false_eq_true, if_false, ite_false, JsNum.num.injEq]
  push_cast
  rfl

/-- C9 counterexample: with a malformed document-level statement rate the
extraction is not treated as malformed: `parseReport` succeeds and the
report carries a `NaN` rate (the run does not fail). -/
theorem doc_rate_malformed_not_fatal :
    (parseReport xmlBadRate []).isOk = true
    ∧ (parseReport xmlBadRate []).toOption.map (fun r => r.all.summary.statementRate)
        = some JsNum.nan := by
  decide

/-- C9 amended: whenever the summary marker is found, parsing completes
without an error whatever numeric text the captures hold: malformed
per-unit counts and malformed document-level invoked or rate text
propagate as `NaN` values in the report; only the document-level
statement count is constrained by the marker pattern to a nonempty digit
run, so it always parses to a number. -/
theorem numeric_malformed_handling (xml : Str) (cf : List Str) (caps : SummaryCaptures)
    (h : findSummaryMatch xml = some caps) :
    ∃ r, parseReport xml cf = Except.ok r
      ∧ r.all.summary.statementRate = parseFloatJs caps.statementRateStr
      ∧ r.all.classes = (scanClasses xml).map mkReportClass
      ∧ caps.statementCountStr ≠ []
      ∧ caps.statementCountStr.all Char.isDigit = true
      ∧ r.all.summary.statementsTotal = JsNum.num (digitsToNat caps.statementCountStr) := by
  obtain ⟨hne, hall⟩ := findSummaryMatch_count_digits xml caps h
  rcases parseReport_shape xml cf with ⟨hn, _⟩ | ⟨caps2, hs, he⟩
  · rw [hn] at h
    cases h
  · rw [hs] at h
    cases h
    exact ⟨_, he, rfl, rfl, hne, hall, parseIntJs_digits _ hne hall⟩

/-- Instantiation of C9's amended claim at a document with a malformed
document-level rate and a malformed per-unit count: the run succeeds, the
document rate is `NaN`, and the per-unit count is `NaN`. -/
theorem numeric_malformed_handling_witness :
    (parseReport xmlBadRate []).toOption.map
        (fun r => (r.all.summary.statementRate,
          r.all.classes.map (fun c => c.statementsTotal)))
      = some (JsNum.nan, [JsNum.nan]) := by
  obtain ⟨r, h1, h2, h3, _⟩ :=
    numeric_malformed_handling xmlBadRate [] capsBadRate (by decide)
  rw [h1]
  show some _ = _
  rw [Option.some.injEq]
  simp only [h2, h3]
  decide

/-- C10: if parsing succeeds and the filtered records' statement totals
sum to zero — also for a nonempty filtered set whose records all have
zero totals — the changed bucket's rate is not finite and the rendered
Markdown omits the Changed files section. -/
theorem zero_total_changed_bucket (xml : Str) (cf : List Str) (r : Report)
    (hok : parseReport xml cf = Except.ok r)
    (hzero : sumTotal r.changed.classes = JsNum.num 0) :
    r.changed.summary.statementRate.isFinite = false
    ∧ renderCommentMarkdown r =
        (if r.all.summary.statementRate.isFinite then renderBucket "All files".toList r.all
         else []) := by
  rcases parseReport_shape xml cf with ⟨_, he⟩ | ⟨caps, _, he⟩
  · rw [he] at hok
    cases hok
  · rw [he] at hok
    cases hok
    have hz : sumTotal (List.filter (classIsChanged cf) ((scanClasses xml).map mkReportClass))
        = JsNum.num 0 := hzero
    have hnf : (((sumInvoked (List.filter (classIsChanged cf)
          ((scanClasses xml).map mkReportClass))).div
            (sumTotal (List.filter (classIsChanged cf)
              ((scanClasses xml).map mkReportClass)))).mul (JsNum.num 100)).isFinite
        = false := by
      rw [hz]
      exact div_zero_mul_hundred_not_finite _
    refine ⟨hnf, ?_⟩
    rw [renderCommentMarkdown_eq]
    simp [hnf]

/-- Instantiation of C10 at `xmlZeroTotal`: the changed bucket holds one
record with zero statements, its rate is `NaN`, and only the All files
section is rendered. -/
theorem zero_total_changed_bucket_witness :
    rZeroTotal.changed.summary.statementRate.isFinite = false
    ∧ renderCommentMarkdown rZeroTotal =
        (if rZeroTotal.all.summary.statementRate.isFinite then
          renderBucket "All files".toList rZeroTotal.all
         else []) :=
  zero_total_changed_bucket xmlZeroTotal cfSample rZeroTotal (by decide) (by decide)

theorem dotTail_cons (p : Str) (ps : List Str) :
    dotTail (p :: ps) = '.' :: (p ++ dotTail ps) := by
  simp [dotTail]

theorem splitDot_ne_nil : ∀ s : Str, splitDot s ≠ []
  | [] => by simp [splitDot]
  | c :: t => by
    by_cases h : c = '.'
    · simp [splitDot, h]
    · simp only [splitDot, if_neg h]
      cases htail : splitDot t with
      | nil => simp
      | cons p ps => simp

theorem splitDot_no_dot : ∀ (s : Str), ∀ p ∈ splitDot s, '.' ∉ p
  | [] => by
    intro p hp
    simp only [splitDot, List.mem_singleton] at hp
    simp [hp]
  | c :: t => by
    intro p hp
    by_cases h : c = '.'
    · rw [splitDot, if_pos h] at hp
      rcases List.mem_cons.mp hp with rfl | hp2
      · simp
      · exact splitDot_no_dot t p hp2
    · rw [splitDot, if_neg h] at hp
      cases htail : splitDot t with
      | nil =>
        rw [htail] at hp
        rcases List.mem_singleton.mp hp with rfl
        intro hmem
        rcases List.mem_singleton.mp hmem with rfl
        exact h rfl
      | cons q qs =>
        rw [htail] at hp
        rcases List.mem_cons.mp hp with rfl | hp2
        · intro hmem
          rcases List.mem_cons.mp hmem with hdot | hq
          · exact h hdot.symm
          · exact splitDot_no_dot t q (htail ▸ List.mem_cons_self q qs) hq
        · exact splitDot_no_dot t p (htail ▸ List.mem_cons_of_mem q hp2)

theorem splitDot_cons_dot (t : Str) : splitDot ('.' :: t) = [] :: splitDot t := by
  simp [splitDot]

theorem splitDot_cons_ne (c : Char) (t : Str) (h : c ≠ '.') :
    splitDot (c :: t) =
      (match splitDot t with
       | [] => [[c]]
       | p :: ps => (c :: p) :: ps) := by
  simp [splitDot, h]

theorem joinDot_splitDot : ∀ s : Str, joinDot (splitDot s) = s
  | [] => rfl
  | c :: t => by
    have hrec := joinDot_splitDot t
    by_cases h : c = '.'
    · subst h
      rw [splitDot_cons_dot]
      cases htail : splitDot t with
      | nil => exact absurd htail (splitDot_ne_nil t)
      | cons p ps =>
        rw [htail] at hrec
        simp only [joinDot] at hrec ⊢
        rw [List.nil_append, dotTail_cons, hrec]
    · rw [splitDot_cons_ne c t h]
      cases htail : splitDot t with
      | nil => exact absurd htail (splitDot_ne_nil t)
      | cons p ps =>
        rw [htail] at hrec
        show joinDot ((c :: p) :: ps) = c :: t
        simp only [joinDot] at hrec ⊢
        rw [List.cons_append, hrec]

theorem splitDot_single (p : Str) (h : '.' ∉ p) : splitDot p = [p] := by
  induction p with
  | nil => rfl
  | cons c t ih =>
    have hc : c ≠ '.' := fun hh => h (hh ▸ List.mem_cons_self c t)
    rw [splitDot_cons_ne c t hc, ih (fun hm => h (List.mem_cons_of_mem c hm))]

theorem splitDot_append_dot (p z : Str) (h : '.' ∉ p) :
    splitDot (p ++ '.' :: z) = p :: splitDot z := by
  induction p with
  | nil => rw [List.nil_append, splitDot_cons_dot]
  | cons c t ih =>
    have hc : c ≠ '.' := fun hh => h (hh ▸ List.mem_cons_self c t)
    rw [List.cons_append, splitDot_cons_ne c _ hc,
      ih (fun hm => h (List.mem_cons_of_mem c hm))]

theorem splitDot_joinDot : ∀ ps : List Str, ps ≠ [] → (∀ p ∈ ps, '.' ∉ p) →
    splitDot (joinDot ps) = ps
  | [], h, _ => absurd rfl h
  | [p], _, hall => by
    simp only [joinDot, dotTail, List.map_nil, List.flatten_nil, List.append_nil]
    exact splitDot_single p (hall p (List.mem_singleton.mpr rfl))
  | p :: q :: ps, _, hall => by
    simp only [joinDot, dotTail_cons]
    rw [splitDot_append_dot p _ (hall p (List.mem_cons_self p (q :: ps)))]
    have : q ++ dotTail ps = joinDot (q :: ps) := rfl
    rw [this, splitDot_joinDot (q :: ps) (by simp)
      (fun x hx => hall x (List.mem_cons_of_mem p hx))]

theorem length_dotTail (ps : List Str) :
    (dotTail ps).length = (ps.map (fun q => q.length + 1)).sum := by
  induction ps with
  | nil => rfl
  | cons p ps ih =>
    rw [dotTail_cons]
    simp only [List.length_cons, List.length_append, List.map_cons, List.sum_cons, ih]
    omega

theorem length_joinDot_of_ne_nil : ∀ m : List Str, m ≠ [] →
    (joinDot m).length + 1 = (m.map (fun q => q.length + 1)).sum
  | [], h => absurd rfl h
  | p :: ps, _ => by
    simp only [joinDot, List.length_append, List.map_cons, List.sum_cons, length_dotTail]
    omega

theorem length_joinDot_reverse (l : List Str) (h : l ≠ []) :
    (joinDot l.reverse).length = (joinDot l).length := by
  have h1 := length_joinDot_of_ne_nil l.reverse (by simpa [List.reverse_eq_nil_iff] using h)
  have h2 := length_joinDot_of_ne_nil l h
  rw [List.map_reverse, List.sum_reverse] at h1
  omega

theorem foldl_abbrevStep_complete :
    ∀ (rest : List Str) (acc : Str), acc.getLast? ≠ some '.' →
      (∀ p ∈ rest, p ≠ [] ∧ '.' ∉ p) →
      (acc ++ dotTail rest).length ≤ 77 →
      rest.foldl abbrevStep acc = acc ++ dotTail rest
  | [], acc, _, _, _ => by simp [dotTail]
  | next :: rest, acc, hlast, hall, hlen => by
    have hnext := hall next (List.mem_cons_self next rest)
    have hlen1 : (acc ++ '.' :: next).length ≤ 77 := by
      rw [dotTail_cons] at hlen
      simp only [List.length_append, List.length_cons] at hlen ⊢
      omega
    have hstep : abbrevStep acc next = acc ++ '.' :: next := by
      rw [abbrevStep, not_endsWith_dots_of_getLast acc hlast]
      simp only [Bool.false_eq_true, if_false, ite_false]
      rw [if_neg (by omega)]
    rw [List.foldl_cons, hstep]
    have hlast2 : (acc ++ '.' :: next).getLast? ≠ some '.' := by
      have : acc ++ '.' :: next = (acc ++ ['.']) ++ next := by simp
      rw [this, List.getLast?_append_of_ne_nil (acc ++ ['.']) hnext.1]
      exact getLast?_ne_dot_of_not_mem next hnext.2
    have hall2 : ∀ p ∈ rest, p ≠ [] ∧ '.' ∉ p :=
      fun p hp => hall p (List.mem_cons_of_mem next hp)
    have hlen2 : ((acc ++ '.' :: next) ++ dotTail rest).length ≤ 77 := by
      rw [dotTail_cons] at hlen
      simp only [List.length_append, List.length_cons] at hlen ⊢
      omega
    rw [foldl_abbrevStep_complete rest (acc ++ '.' :: next) hlast2 hall2 hlen2,
      dotTail_cons]
    simp

theorem foldl_abbrevStep_endsOrFull :
    ∀ (rest : List Str) (acc : Str),
      strEndsWith (rest.foldl abbrevStep acc) dots = true
      ∨ rest.foldl abbrevStep acc = acc ++ dotTail rest
  | [], acc => Or.inr (by simp [dotTail])
  | next :: rest, acc => by
    rw [List.foldl_cons]
    by_cases h1 : strEndsWith acc dots = true
    · rw [abbrevStep_of_endsWith acc next h1, foldl_abbrevStep_const rest acc h1]
      exact Or.inl h1
    · by_cases h2 : (acc ++ '.' :: next).length > 77
      · have hstep : abbrevStep acc next = acc ++ dots := by
          rw [abbrevStep, if_neg h1, if_pos h2]
        rw [hstep, foldl_abbrevStep_const rest _ (strEndsWith_append_dots acc)]
        exact Or.inl (strEndsWith_append_dots acc)
      · have hstep : abbrevStep acc next = acc ++ '.' :: next := by
          rw [abbrevStep, if_neg h1, if_neg h2]
        rw [hstep]
        rcases foldl_abbrevStep_endsOrFull rest (acc ++ '.' :: next) with h | h
        · exact Or.inl h
        · right
          rw [h, dotTail_cons]
          simp

theorem foldl_abbrevStep_length :
    ∀ (rest : List Str) (acc : Str),
      acc.length ≤ 77 ∨ (strEndsWith acc dots = true ∧ acc.length ≤ 80) →
      (rest.foldl abbrevStep acc).length ≤ 80
  | [], acc, h => by
    rcases h with h | ⟨_, h⟩ <;> simpa using by omega
  | next :: rest, acc, h => by
    rw [List.foldl_cons]
    by_cases h1 : strEndsWith acc dots = true
    · rw [abbrevStep_of_endsWith acc next h1]
      exact foldl_abbrevStep_length rest acc h
    · have hacc : acc.length ≤ 77 := by
        rcases h with h | ⟨hd, _⟩
        · exact h
        · exact absurd hd h1
      by_cases h2 : (acc ++ '.' :: next).length > 77
      · have hstep : abbrevStep acc next = acc ++ dots := by
          rw [abbrevStep, if_neg h1, if_pos h2]
        rw [hstep]
        apply foldl_abbrevStep_length rest
        refine Or.inr ⟨strEndsWith_append_dots acc, ?_⟩
        simp only [List.length_append, dots, List.length_cons, List.length_nil]
        omega
      · have hstep : abbrevStep acc next = acc ++ '.' :: next := by
          rw [abbrevStep, if_neg h1, if_neg h2]
        rw [hstep]
        apply foldl_abbrevStep_length rest
        left
        omega

theorem classNameAbbreviated_complete (name : Str)
    (hlen : name.length ≤ 77) (hall : ∀ p ∈ splitDot name, p ≠ []) :
    classNameAbbreviated name = joinDot ((splitDot name).reverse) := by
  rw [classNameAbbreviated]
  cases hrev : (splitDot name).reverse with
  | nil => exact absurd (by simpa [List.reverse_eq_nil_iff] using hrev) (splitDot_ne_nil name)
  | cons seg0 rest =>
    show rest.foldl abbrevStep seg0 = _
    have hmem : ∀ p ∈ seg0 :: rest, p ∈ splitDot name := by
      intro p hp
      have : p ∈ (splitDot name).reverse := hrev ▸ hp
      simpa using this
    have hseg0nd : '.' ∉ seg0 :=
      splitDot_no_dot name seg0 (hmem seg0 (List.mem_cons_self seg0 rest))
    have hlast : seg0.getLast? ≠ some '.' := getLast?_ne_dot_of_not_mem seg0 hseg0nd
    have hrestp : ∀ p ∈ rest, p ≠ [] ∧ '.' ∉ p := fun p hp =>
      ⟨hall p (hmem p (List.mem_cons_of_mem seg0 hp)),
       splitDot_no_dot name p (hmem p (List.mem_cons_of_mem seg0 hp))⟩
    have hjoin : seg0 ++ dotTail rest = joinDot ((splitDot name).reverse) := by
      rw [hrev]
      rfl
    have hlen2 : (seg0 ++ dotTail rest).length ≤ 77 := by
      rw [hjoin, length_joinDot_reverse (splitDot name) (splitDot_ne_nil name),
        joinDot_splitDot]
      exact hlen
    rw [foldl_abbrevStep_complete rest seg0 hlast hrestp hlen2, hjoin, hrev]

theorem classNameAbbreviated_bound (name : Str)
    (hhead : ((splitDot name).reverse.headD []).length ≤ 77) :
    (classNameAbbreviated name).length ≤ 80 := by
  rw [classNameAbbreviated]
  cases hrev : (splitDot name).reverse with
  | nil => simp
  | cons seg0 rest =>
    show (rest.foldl abbrevStep seg0).length ≤ 80
    apply foldl_abbrevStep_length rest seg0
    left
    rw [hrev] at hhead
    simpa using hhead

/-- C7 counterexample: abbreviation is not idempotent on `a.b` (3
characters, far below the limit): it maps `a.b` to `b.a` and `b.a` back
to `a.b`. -/
theorem abbrev_not_idempotent :
    classNameAbbreviated (classNameAbbreviated "a.b".toList)
      ≠ classNameAbbreviated "a.b".toList := by
  decide

/-- C7 amended: the abbreviation reverses the segment order rather than
being idempotent: on names of at most 77 characters whose dot-segments
are all nonempty it performs no truncation — the result is the dot-join
of the reversed segments — and applying it twice returns the original
name (an involution); on every name the result either ends in `'...'` or
is the full dot-join of the reversed segments; and whenever the innermost
segment has at most 77 characters (in particular whenever the whole name
does) the result has at most 80 characters. -/
theorem abbrev_involution_properties (name : Str) :
    (name.length ≤ 77 → (∀ p ∈ splitDot name, p ≠ []) →
        classNameAbbreviated name = joinDot ((splitDot name).reverse)
        ∧ classNameAbbreviated (classNameAbbreviated name) = name)
    ∧ (strEndsWith (classNameAbbreviated name) dots = true
        ∨ classNameAbbreviated name = joinDot ((splitDot name).reverse))
    ∧ (((splitDot name).reverse.headD []).length ≤ 77 →
        (classNameAbbreviated name).length ≤ 80) := by
  refine ⟨?_, ?_, classNameAbbreviated_bound name⟩
  · intro hlen hall
    refine ⟨classNameAbbreviated_complete name hlen hall, ?_⟩
    rw [classNameAbbreviated_complete name hlen hall]
    have hsplit2 : splitDot (joinDot ((splitDot name).reverse)) = (splitDot name).reverse :=
      splitDot_joinDot _ (by simpa [List.reverse_eq_nil_iff] using splitDot_ne_nil name)
        (fun p hp => splitDot_no_dot name p (by simpa using hp))
    have hlen2 : (joinDot ((splitDot name).reverse)).length ≤ 77 := by
      rw [length_joinDot_reverse (splitDot name) (splitDot_ne_nil name), joinDot_splitDot]
      exact hlen
    have hall2 : ∀ p ∈ splitDot (joinDot ((splitDot name).reverse)), p ≠ [] := by
      rw [hsplit2]
      intro p hp
      exact hall p (by simpa using hp)
    rw [classNameAbbreviated_complete _ hlen2 hall2, hsplit2, List.reverse_reverse,
      joinDot_splitDot]
  · cases hrev : (splitDot name).reverse with
    | nil => exact absurd (by simpa [List.reverse_eq_nil_iff] using hrev) (splitDot_ne_nil name)
    | cons seg0 rest =>
      rw [classNameAbbreviated, hrev]
      show strEndsWith (rest.foldl abbrevStep seg0) dots = true
        ∨ rest.foldl abbrevStep seg0 = joinDot (seg0 :: rest)
      rcases foldl_abbrevStep_endsOrFull rest seg0 with h | h
      · exact Or.inl h
      · right
        rw [h]
        rfl

/-- Instantiation of C7's amended claim at `ab.cd`: the abbreviation
reverses the segments and applying it twice returns the input. -/
theorem abbrev_involution_properties_witness :
    classNameAbbreviated "ab.cd".toList = joinDot ((splitDot "ab.cd".toList).reverse)
    ∧ classNameAbbreviated (classNameAbbreviated "ab.cd".toList) = "ab.cd".toList :=
  (abbrev_involution_properties "ab.cd".toList).1 (by decide) (by decide)
